import Mathlib

/-! Verification of the Spatial Binning and Categorical Color-Mix Engine
    (the GridMap component): a shallow embedding of the extent query, the
    binning and aggregation SQL, the accumulation loop, the color mixer
    and the density shader, with theorems checking the documented
    properties of the transform.

    Modelling conventions: float64 coordinates and the SQL arithmetic are
    embedded as exact rationals (every value appearing in the checked
    scenarios is computed exactly by the float code as well); Math.sqrt
    is Real.sqrt; Math.round and the round of the mixer are the
    mathematical round (half away from below, as in JS Math.round), and
    SQL FLOOR together with CAST AS INTEGER is Int.floor. -/

/-- A data point: coordinates and a category id (a row of arrow_table
    with columns umap_x, umap_y, cat_id). -/
structure Point where
  x : ℚ
  y : ℚ
  cat : ℕ
deriving DecidableEq, Repr

/-- An RGB triple with integer channels. -/
abbrev RGB := ℤ × ℤ × ℤ

/-- The module-level palette constant of GridMap (K = 4 entries). -/
def PALETTE : List RGB := [(230, 57, 70), (29, 53, 87), (69, 123, 157), (241, 196, 15)]

/-- SQL MIN folded over the column (none on an empty table). -/
def minOpt (a : ℚ) : Option ℚ → Option ℚ
  | none => some a
  | some b => some (min a b)

/-- SQL MAX folded over the column (none on an empty table). -/
def maxOpt (a : ℚ) : Option ℚ → Option ℚ
  | none => some a
  | some b => some (max a b)

def listMin (xs : List ℚ) : Option ℚ := xs.foldr minOpt none

def listMax (xs : List ℚ) : Option ℚ := xs.foldr maxOpt none

/-- The bounding box row returned by the extents query. -/
structure Extent where
  xmin : ℚ
  xmax : ℚ
  ymin : ℚ
  ymax : ℚ
deriving DecidableEq, Repr

/-- SELECT MIN(umap_x), MAX(umap_x), MIN(umap_y), MAX(umap_y) FROM
    arrow_table: none when the table is empty. -/
def extentOf (ps : List Point) : Option Extent :=
  match listMin (ps.map Point.x), listMax (ps.map Point.x),
        listMin (ps.map Point.y), listMax (ps.map Point.y) with
  | some a, some b, some c, some d => some ⟨a, b, c, d⟩
  | _, _, _, _ => none

/-- CAST(FLOOR((umap_x - xmin) / NULLIF(xmax - xmin, 0) * W) AS INTEGER);
    the NULLIF guard is subsumed by the xmax > xmin conjunct of the row
    filter, under which the divisor is nonzero. -/
def binIx (xmin xmax : ℚ) (W : ℕ) (x : ℚ) : ℤ :=
  Int.floor ((x - xmin) / (xmax - xmin) * W)

/-- The row index, analogous to binIx. -/
def binIy (ymin ymax : ℚ) (H : ℕ) (y : ℚ) : ℤ :=
  Int.floor ((y - ymin) / (ymax - ymin) * H)

/-- The combined row filter of the binning query: the WHERE clause of the
    binned CTE (xmax > xmin AND ymax > ymin AND umap_x BETWEEN xmin AND
    xmax AND umap_y BETWEEN ymin AND ymax) together with the index-range
    filter of the agg CTE (ix BETWEEN 0 AND W-1 AND iy BETWEEN 0 AND H-1). -/
def acceptPoint (W H : ℕ) (e : Extent) (p : Point) : Bool :=
  decide (e.xmin < e.xmax) && decide (e.ymin < e.ymax) &&
  decide (e.xmin ≤ p.x) && decide (p.x ≤ e.xmax) &&
  decide (e.ymin ≤ p.y) && decide (p.y ≤ e.ymax) &&
  decide (0 ≤ binIx e.xmin e.xmax W p.x) &&
  decide (binIx e.xmin e.xmax W p.x ≤ (W : ℤ) - 1) &&
  decide (0 ≤ binIy e.ymin e.ymax H p.y) &&
  decide (binIy e.ymin e.ymax H p.y ≤ (H : ℤ) - 1)

/-- idx = iy * W + ix, the linear cell index used by the accumulation loop. -/
def cellIdx (W H : ℕ) (e : Extent) (p : Point) : ℤ :=
  binIy e.ymin e.ymax H p.y * (W : ℤ) + binIx e.xmin e.xmax W p.x

/-- totals[i]: the accumulation loop stores each row's window sum n_total,
    which is the number of accepted points binned to linear cell i; a cell
    with no row keeps its initial 0, which is also the count. -/
def totalsArr (W H : ℕ) (ps : List Point) (i : ℕ) : ℕ :=
  match extentOf ps with
  | none => 0
  | some e => ps.countP fun p => acceptPoint W H e p && decide (cellIdx W H e p = (i : ℤ))

/-- counts[j]: the loop performs counts[idx * 4 + cat] += n, so linear
    slot j accumulates every accepted point with cellIdx * 4 + cat = j.
    For an overflow category cat ≥ 4 the write lands in a later cell's
    block of four slots (or, past the end of the array, is dropped; slots
    past W*H*4 are never read back). -/
def slotCount (W H : ℕ) (ps : List Point) (j : ℕ) : ℕ :=
  match extentOf ps with
  | none => 0
  | some e =>
    ps.countP fun p =>
      acceptPoint W H e p && decide (cellIdx W H e p * 4 + (p.cat : ℤ) = (j : ℤ))

/-- maxTot: the maximum n_total seen while scanning the rows, equal to the
    maximum cell total over the whole grid (0 when every cell is empty). -/
def maxTot (W H : ℕ) (ps : List Point) : ℕ :=
  (List.range (W * H)).foldr (fun i m => max (totalsArr W H ps i) m) 0

/-- The accumulation loop of mixSRGB: for k < min(counts.length,
    palette.length), w = counts[k] / total and each channel accumulates
    palette[k].channel * w (the terms are summed here right-to-left;
    rational addition is associative and commutative, so this equals the
    loop's left-to-right sum). -/
def mixSum (palette : List RGB) (counts : List ℕ) (total : ℕ) : ℚ × ℚ × ℚ :=
  match palette, counts with
  | c :: ptl, n :: ctl =>
    let w : ℚ := (n : ℚ) / (total : ℚ)
    let rest := mixSum ptl ctl total
    ((c.1 : ℚ) * w + rest.1, (c.2.1 : ℚ) * w + rest.2.1, (c.2.2 : ℚ) * w + rest.2.2)
  | _, _ => (0, 0, 0)

/-- mixSRGB: white for a zero total, otherwise the rounded weighted blend
    of the palette. -/
def mixSRGB (palette : List RGB) (counts : List ℕ) (total : ℕ) : RGB :=
  if total = 0 then (255, 255, 255)
  else
    (round (mixSum palette counts total).1,
     round (mixSum palette counts total).2.1,
     round (mixSum palette counts total).2.2)

/-- shade = 0.15 + 0.85 * Math.sqrt(tot / (maxTot || 1)). -/
noncomputable def shadeOf (tot maxT : ℕ) : ℝ :=
  0.15 + 0.85 * Real.sqrt ((tot : ℝ) / (if maxT = 0 then 1 else (maxT : ℝ)))

/-- Math.min(255, Math.round(channel * shade)). -/
noncomputable def shadeChannel (c : ℤ) (s : ℝ) : ℤ :=
  min 255 (round ((c : ℝ) * s))

/-- One rendered cell: the "transparent" sentinel string or an
    "rgb(r, g, b)" css color. -/
inductive Cell where
  | transparent : Cell
  | rgb (r g b : ℤ) : Cell
deriving DecidableEq, Repr

/-- The body of the render loop at linear cell i: the empty sentinel when
    the cell total is 0, otherwise the mixed color of the cell's four
    count slots, shaded and clamped. -/
noncomputable def renderCell (W H : ℕ) (palette : List RGB) (ps : List Point) (i : ℕ) : Cell :=
  if totalsArr W H ps i = 0 then Cell.transparent
  else
    let mix := mixSRGB palette
      [slotCount W H ps (i * 4), slotCount W H ps (i * 4 + 1),
       slotCount W H ps (i * 4 + 2), slotCount W H ps (i * 4 + 3)]
      (totalsArr W H ps i)
    let s := shadeOf (totalsArr W H ps i) (maxTot W H ps)
    Cell.rgb (shadeChannel mix.1 s) (shadeChannel mix.2.1 s) (shadeChannel mix.2.2 s)

/-- The published RenderedGrid: W*H cells in row-major order. -/
noncomputable def render (W H : ℕ) (palette : List RGB) (ps : List Point) : List Cell :=
  (List.range (W * H)).map (renderCell W H palette ps)

/-- The mixing formula as the specification words it: each channel is the
    round of the sum over all category indices k < K of palette[k].channel
    * counts[k] / total, a count slot past the end of the list reading 0. -/
def specMixColor (palette : List RGB) (counts : List ℕ) (total : ℕ) : RGB :=
  (round (∑ k in Finset.range palette.length,
      ((palette.getD k (0, 0, 0)).1 : ℚ) * ((counts.getD k 0 : ℚ) / (total : ℚ))),
   round (∑ k in Finset.range palette.length,
      ((palette.getD k (0, 0, 0)).2.1 : ℚ) * ((counts.getD k 0 : ℚ) / (total : ℚ))),
   round (∑ k in Finset.range palette.length,
      ((palette.getD k (0, 0, 0)).2.2 : ℚ) * ((counts.getD k 0 : ℚ) / (total : ℚ))))

/-- Modelled from the spec (4.2 Grid Binner), for the refinement claim
    about in-process iteration, which is not part of the source: a point
    is rejected on a degenerate extent, when a coordinate lies strictly
    outside the extent, or when a computed index leaves the grid range;
    otherwise it maps to the floor-computed cell. -/
def specBin (W H : ℕ) (e : Extent) (p : Point) : Option (ℤ × ℤ) :=
  if e.xmax = e.xmin ∨ e.ymax = e.ymin then none
  else if p.x < e.xmin ∨ e.xmax < p.x ∨ p.y < e.ymin ∨ e.ymax < p.y then none
  else if 0 ≤ binIx e.xmin e.xmax W p.x ∧ binIx e.xmin e.xmax W p.x ≤ (W : ℤ) - 1 ∧
          0 ≤ binIy e.ymin e.ymax H p.y ∧ binIy e.ymin e.ymax H p.y ≤ (H : ℤ) - 1 then
    some (binIx e.xmin e.xmax W p.x, binIy e.ymin e.ymax H p.y)
  else none

/-- Modelled from the spec (4.3 Category Aggregator), in-process strategy:
    the cell total counts every point binned to the cell. -/
def specCellTotal (W H : ℕ) (ps : List Point) (ix iy : ℤ) : ℕ :=
  match extentOf ps with
  | none => 0
  | some e => ps.countP fun p => decide (specBin W H e p = some (ix, iy))

/-- Modelled from the spec (4.3 Category Aggregator), in-process strategy:
    a per-category counter is kept only for category indices below the
    palette length K; an overflow point increments no counter. -/
def specCellCount (W H K : ℕ) (ps : List Point) (ix iy : ℤ) (k : ℕ) : ℕ :=
  if k < K then
    match extentOf ps with
    | none => 0
    | some e =>
      ps.countP fun p => decide (specBin W H e p = some (ix, iy)) && decide (p.cat = k)
  else 0

/-- The concrete scenario of the specification: W = H = 2, points
    (0,0,0), (0,0,0), (9,9,1), extent [0,9] x [0,9]. -/
def scenarioPts : List Point := [⟨0, 0, 0⟩, ⟨0, 0, 0⟩, ⟨9, 9, 1⟩]

/-- Two in-palette points pinning the extent to [0,8] x [0,8]; the point
    (8,8) sits on the maximum edge and is rejected, (0,0) lands in cell 0. -/
def overflowBase : List Point := [⟨0, 0, 0⟩, ⟨8, 8, 0⟩]

/-- overflowBase plus one accepted point of overflow category 4 in cell 0. -/
def overflowPts : List Point := [⟨0, 0, 0⟩, ⟨8, 8, 0⟩, ⟨0, 0, 4⟩]

/-- A point set whose points all share identical coordinates. -/
def samePts : List Point := [⟨3, 4, 0⟩, ⟨3, 4, 1⟩]

theorem minOpt_left_comm (a b : ℚ) (m : Option ℚ) :
    minOpt a (minOpt b m) = minOpt b (minOpt a m) := by
  cases m <;> simp [minOpt, min_comm, min_left_comm]

theorem maxOpt_left_comm (a b : ℚ) (m : Option ℚ) :
    maxOpt a (maxOpt b m) = maxOpt b (maxOpt a m) := by
  cases m <;> simp [maxOpt, max_comm, max_left_comm]

theorem listMin_perm {xs ys : List ℚ} (h : xs.Perm ys) : listMin xs = listMin ys := by
  induction h with
  | nil => rfl
  | cons a _ ih =>
    simp only [listMin, List.foldr_cons] at ih ⊢
    rw [ih]
  | swap a b l =>
    simp only [listMin, List.foldr_cons]
    exact minOpt_left_comm b a _
  | trans _ _ ih1 ih2 => exact ih1.trans ih2

theorem listMax_perm {xs ys : List ℚ} (h : xs.Perm ys) : listMax xs = listMax ys := by
  induction h with
  | nil => rfl
  | cons a _ ih =>
    simp only [listMax, List.foldr_cons] at ih ⊢
    rw [ih]
  | swap a b l =>
    simp only [listMax, List.foldr_cons]
    exact maxOpt_left_comm b a _
  | trans _ _ ih1 ih2 => exact ih1.trans ih2

theorem extentOf_perm {ps qs : List Point} (h : ps.Perm qs) : extentOf ps = extentOf qs := by
  unfold extentOf
  rw [listMin_perm (h.map Point.x), listMax_perm (h.map Point.x),
      listMin_perm (h.map Point.y), listMax_perm (h.map Point.y)]

theorem totalsArr_perm (W H : ℕ) {ps qs : List Point} (h : ps.Perm qs) (i : ℕ) :
    totalsArr W H ps i = totalsArr W H qs i := by
  unfold totalsArr
  rw [extentOf_perm h]
  cases extentOf qs with
  | none => rfl
  | some e => exact h.countP_eq _

theorem slotCount_perm (W H : ℕ) {ps qs : List Point} (h : ps.Perm qs) (j : ℕ) :
    slotCount W H ps j = slotCount W H qs j := by
  unfold slotCount
  rw [extentOf_perm h]
  cases extentOf qs with
  | none => rfl
  | some e => exact h.countP_eq _

theorem maxTot_perm (W H : ℕ) {ps qs : List Point} (h : ps.Perm qs) :
    maxTot W H ps = maxTot W H qs := by
  unfold maxTot
  congr 1
  funext i m
  rw [totalsArr_perm W H h]

theorem renderCell_perm (W H : ℕ) (palette : List RGB) {ps qs : List Point}
    (h : ps.Perm qs) (i : ℕ) : renderCell W H palette ps i = renderCell W H palette qs i := by
  unfold renderCell
  simp only [totalsArr_perm W H h, slotCount_perm W H h, maxTot_perm W H h]

/-- Claim C4: for a fixed configuration the RenderedGrid is a function of
    the point multiset alone — refreshing on any permutation of the input
    sequence (and re-refreshing the same data) publishes an identical grid. -/
theorem render_perm_invariant (W H : ℕ) (palette : List RGB) (ps qs : List Point)
    (h : ps.Perm qs) : render W H palette ps = render W H palette qs := by
  unfold render
  congr 1
  funext i
  exact renderCell_perm W H palette h i

/-- Witness for render_perm_invariant at a concrete permuted pair. -/
theorem render_perm_invariant_witness :
    ([⟨0, 0, 0⟩, ⟨8, 8, 0⟩] : List Point).Perm [⟨8, 8, 0⟩, ⟨0, 0, 0⟩] ∧
    render 2 2 PALETTE [⟨0, 0, 0⟩, ⟨8, 8, 0⟩] = render 2 2 PALETTE [⟨8, 8, 0⟩, ⟨0, 0, 0⟩] :=
  ⟨List.Perm.swap _ _ _, render_perm_invariant 2 2 PALETTE _ _ (List.Perm.swap _ _ _)⟩

theorem acceptPoint_eq_true_iff (W H : ℕ) (e : Extent) (p : Point) :
    acceptPoint W H e p = true ↔
      (e.xmin < e.xmax ∧ e.ymin < e.ymax ∧
       e.xmin ≤ p.x ∧ p.x ≤ e.xmax ∧ e.ymin ≤ p.y ∧ p.y ≤ e.ymax ∧
       0 ≤ binIx e.xmin e.xmax W p.x ∧ binIx e.xmin e.xmax W p.x ≤ (W : ℤ) - 1 ∧
       0 ≤ binIy e.ymin e.ymax H p.y ∧ binIy e.ymin e.ymax H p.y ≤ (H : ℤ) - 1) := by
  simp [acceptPoint, Bool.and_eq_true, decide_eq_true_eq, and_assoc]

theorem cellIdx_bounds (W H : ℕ) (e : Extent) (p : Point)
    (h : acceptPoint W H e p = true) :
    0 ≤ cellIdx W H e p ∧ cellIdx W H e p < (W : ℤ) * (H : ℤ) := by
  rw [acceptPoint_eq_true_iff] at h
  obtain ⟨-, -, -, -, -, -, h7, h8, h9, h10⟩ := h
  have hW : (0 : ℤ) ≤ (W : ℤ) := Int.natCast_nonneg W
  unfold cellIdx
  constructor
  · have := mul_nonneg h9 hW
    linarith
  · have := mul_le_mul_of_nonneg_right h10 hW
    nlinarith

theorem totalsArr_eq_zero_of_le (W H : ℕ) (ps : List Point) (i : ℕ)
    (h : W * H ≤ i) : totalsArr W H ps i = 0 := by
  unfold totalsArr
  cases hE : extentOf ps with
  | none => rfl
  | some e =>
    rw [List.countP_eq_zero]
    intro p hp
    simp only [Bool.and_eq_true, decide_eq_true_eq]
    rintro ⟨hacc, hcell⟩
    have hb := (cellIdx_bounds W H e p hacc).2
    have hcast : ((W : ℤ) * (H : ℤ)) ≤ (i : ℤ) := by exact_mod_cast h
    rw [hcell] at hb
    linarith

theorem le_foldr_max (f : ℕ → ℕ) (l : List ℕ) (i : ℕ) (h : i ∈ l) :
    f i ≤ l.foldr (fun j m => max (f j) m) 0 := by
  induction l with
  | nil => cases h
  | cons a tl ih =>
    rcases List.mem_cons.mp h with h1 | h2
    · subst h1
      exact le_max_left _ _
    · exact le_trans (ih h2) (le_max_right _ _)

theorem totalsArr_le_maxTot (W H : ℕ) (ps : List Point) (i : ℕ) (hi : i < W * H) :
    totalsArr W H ps i ≤ maxTot W H ps :=
  le_foldr_max (totalsArr W H ps) _ i (List.mem_range.mpr hi)

theorem render_getD (W H : ℕ) (palette : List RGB) (ps : List Point) (i : ℕ)
    (hi : i < W * H) :
    (render W H palette ps).getD i Cell.transparent = renderCell W H palette ps i := by
  unfold render
  rw [List.getD_eq_getElem?_getD, List.getElem?_map, List.getElem?_range hi]
  rfl

theorem render_getD_oob (W H : ℕ) (palette : List RGB) (ps : List Point) (i : ℕ)
    (hi : W * H ≤ i) :
    (render W H palette ps).getD i Cell.transparent = Cell.transparent := by
  unfold render
  rw [List.getD_eq_getElem?_getD, List.getElem?_eq_none (by simpa using hi)]
  rfl

theorem renderCell_transparent_iff (W H : ℕ) (palette : List RGB) (ps : List Point) (i : ℕ) :
    renderCell W H palette ps i = Cell.transparent ↔ totalsArr W H ps i = 0 := by
  unfold renderCell
  by_cases h : totalsArr W H ps i = 0
  · simp [h]
  · simp [h]

/-- Claim C5: a published cell holds the transparent sentinel exactly when
    its aggregate total is 0; the render loop assigns the sentinel in that
    case before any mixing or shading happens (out-of-range reads see the
    sentinel default and a zero total, so the equivalence is unconditional). -/
theorem empty_sentinel_iff_total_zero (W H : ℕ) (palette : List RGB) (ps : List Point)
    (i : ℕ) :
    (render W H palette ps).getD i Cell.transparent = Cell.transparent ↔
      totalsArr W H ps i = 0 := by
  rcases lt_or_le i (W * H) with hi | hi
  · rw [render_getD W H palette ps i hi, renderCell_transparent_iff]
  · rw [render_getD_oob W H palette ps i hi]
    simp [totalsArr_eq_zero_of_le W H ps i hi]

theorem listMin_const (xs : List ℚ) (c : ℚ) (h : ∀ a ∈ xs, a = c) :
    listMin xs = if xs = [] then none else some c := by
  induction xs with
  | nil => rfl
  | cons a tl ih =>
    have ha : a = c := h a (List.mem_cons_self a tl)
    have htl : ∀ b ∈ tl, b = c := fun b hb => h b (List.mem_cons_of_mem a hb)
    show minOpt a (listMin tl) = _
    rw [ih htl]
    cases tl with
    | nil => simp [minOpt, ha]
    | cons b tl2 => simp [minOpt, ha, min_self]

theorem listMax_const (xs : List ℚ) (c : ℚ) (h : ∀ a ∈ xs, a = c) :
    listMax xs = if xs = [] then none else some c := by
  induction xs with
  | nil => rfl
  | cons a tl ih =>
    have ha : a = c := h a (List.mem_cons_self a tl)
    have htl : ∀ b ∈ tl, b = c := fun b hb => h b (List.mem_cons_of_mem a hb)
    show maxOpt a (listMax tl) = _
    rw [ih htl]
    cases tl with
    | nil => simp [maxOpt, ha]
    | cons b tl2 => simp [maxOpt, ha, max_self]

theorem accept_degenerate_x (W H : ℕ) (e : Extent) (p : Point)
    (hd : ¬ e.xmin < e.xmax) : acceptPoint W H e p = false := by
  simp [acceptPoint, hd]

/-- Claim C6: an empty point set, or one whose points all share identical
    coordinates (so the bounding box is degenerate), refreshes to the
    all-empty RenderedGrid of W*H sentinel entries; the transform is total,
    so no error can arise. -/
theorem degenerate_input_all_empty (W H : ℕ) (palette : List RGB) (ps : List Point)
    (h : ps = [] ∨ ∀ p ∈ ps, ∀ q ∈ ps, p.x = q.x ∧ p.y = q.y) :
    render W H palette ps = List.replicate (W * H) Cell.transparent := by
  have htot : ∀ i, totalsArr W H ps i = 0 := by
    intro i
    rcases h with h | h
    · subst h; rfl
    · cases ps with
      | nil => rfl
      | cons p tl =>
        have hxall : ∀ a ∈ (p :: tl).map Point.x, a = p.x := by
          intro a ha
          obtain ⟨q, hq, rfl⟩ := List.mem_map.mp ha
          exact (h q hq p (List.mem_cons_self p tl)).1
        have hyall : ∀ a ∈ (p :: tl).map Point.y, a = p.y := by
          intro a ha
          obtain ⟨q, hq, rfl⟩ := List.mem_map.mp ha
          exact (h q hq p (List.mem_cons_self p tl)).2
        have hne : (p :: tl).map Point.x ≠ [] := by simp
        have hne2 : (p :: tl).map Point.y ≠ [] := by simp
        have hext : extentOf (p :: tl) = some ⟨p.x, p.x, p.y, p.y⟩ := by
          unfold extentOf
          rw [listMin_const _ _ hxall, listMax_const _ _ hxall,
              listMin_const _ _ hyall, listMax_const _ _ hyall,
              if_neg hne, if_neg hne2]
        unfold totalsArr
        rw [hext]
        rw [List.countP_eq_zero]
        intro q hq
        have hfalse : acceptPoint W H ⟨p.x, p.x, p.y, p.y⟩ q = false :=
          accept_degenerate_x W H ⟨p.x, p.x, p.y, p.y⟩ q (lt_irrefl p.x)
        simp [hfalse]
  unfold render
  have hcell : ∀ i, renderCell W H palette ps i = Cell.transparent := by
    intro i
    unfold renderCell
    simp [htot i]
  calc (List.range (W * H)).map (renderCell W H palette ps)
      = (List.range (W * H)).map (fun i => Cell.transparent) := by
        congr 1
        funext i
        exact hcell i
    _ = List.replicate (W * H) Cell.transparent := by
        simp [List.map_const', List.length_range]

/-- Witness for degenerate_input_all_empty on a two-point identical set. -/
theorem degenerate_input_all_empty_witness :
    (samePts = [] ∨ ∀ p ∈ samePts, ∀ q ∈ samePts, p.x = q.x ∧ p.y = q.y) ∧
    render 2 2 PALETTE samePts = List.replicate (2 * 2) Cell.transparent :=
  ⟨Or.inr (by decide), degenerate_input_all_empty 2 2 PALETTE samePts (Or.inr (by decide))⟩

/-- Claim C7: whenever the render loop reaches the shade computation, the
    cell total is at least 1 and at most maxTot, so maxTot is nonzero, the
    maxTot-or-1 guard is inert and the applied multiplier is exactly
    0.15 + 0.85 * sqrt(total / maxTotal). -/
theorem shade_guard_and_formula (W H : ℕ) (ps : List Point) (i : ℕ)
    (hi : i < W * H) (h : totalsArr W H ps i ≠ 0) :
    1 ≤ totalsArr W H ps i ∧ totalsArr W H ps i ≤ maxTot W H ps ∧ maxTot W H ps ≠ 0 ∧
    shadeOf (totalsArr W H ps i) (maxTot W H ps) =
      0.15 + 0.85 * Real.sqrt ((totalsArr W H ps i : ℝ) / (maxTot W H ps : ℝ)) := by
  have h1 : 1 ≤ totalsArr W H ps i := Nat.one_le_iff_ne_zero.mpr h
  have h2 := totalsArr_le_maxTot W H ps i hi
  have h3 : maxTot W H ps ≠ 0 := by omega
  refine ⟨h1, h2, h3, ?_⟩
  unfold shadeOf
  rw [if_neg h3]

theorem round_nonneg_of_nonneg {α : Type} [LinearOrderedField α] [FloorRing α]
    (x : α) (h : 0 ≤ x) : 0 ≤ round x := by
  rw [round_eq]
  refine Int.le_floor.mpr ?_
  push_cast
  linarith

theorem mixSum_nil (counts : List ℕ) (total : ℕ) : mixSum [] counts total = (0, 0, 0) := by
  cases counts <;> rfl

theorem mixSum_none (c : RGB) (ptl : List RGB) (total : ℕ) :
    mixSum (c :: ptl) [] total = (0, 0, 0) := rfl

theorem mixSum_cons (c : RGB) (ptl : List RGB) (n : ℕ) (ctl : List ℕ) (total : ℕ) :
    mixSum (c :: ptl) (n :: ctl) total =
      ((c.1 : ℚ) * ((n : ℚ) / (total : ℚ)) + (mixSum ptl ctl total).1,
       (c.2.1 : ℚ) * ((n : ℚ) / (total : ℚ)) + (mixSum ptl ctl total).2.1,
       (c.2.2 : ℚ) * ((n : ℚ) / (total : ℚ)) + (mixSum ptl ctl total).2.2) := rfl

theorem mixSum_nonneg (palette : List RGB) (counts : List ℕ) (total : ℕ)
    (hpal : ∀ c ∈ palette, 0 ≤ c.1 ∧ 0 ≤ c.2.1 ∧ 0 ≤ c.2.2) :
    0 ≤ (mixSum palette counts total).1 ∧ 0 ≤ (mixSum palette counts total).2.1 ∧
    0 ≤ (mixSum palette counts total).2.2 := by
  induction palette generalizing counts with
  | nil => simp [mixSum_nil]
  | cons c ptl ih =>
    cases counts with
    | nil => simp [mixSum_none]
    | cons n ctl =>
      have hc := hpal c (List.mem_cons_self c ptl)
      have htl : ∀ d ∈ ptl, 0 ≤ d.1 ∧ 0 ≤ d.2.1 ∧ 0 ≤ d.2.2 :=
        fun d hd => hpal d (List.mem_cons_of_mem c hd)
      have hr := ih ctl htl
      have hw : (0 : ℚ) ≤ (n : ℚ) / (total : ℚ) := by positivity
      rw [mixSum_cons]
      refine ⟨?_, ?_, ?_⟩
      · exact add_nonneg (mul_nonneg (by exact_mod_cast hc.1) hw) hr.1
      · exact add_nonneg (mul_nonneg (by exact_mod_cast hc.2.1) hw) hr.2.1
      · exact add_nonneg (mul_nonneg (by exact_mod_cast hc.2.2) hw) hr.2.2

theorem mixSRGB_nonneg (palette : List RGB) (counts : List ℕ) (total : ℕ)
    (hpal : ∀ c ∈ palette, 0 ≤ c.1 ∧ 0 ≤ c.2.1 ∧ 0 ≤ c.2.2) :
    0 ≤ (mixSRGB palette counts total).1 ∧ 0 ≤ (mixSRGB palette counts total).2.1 ∧
    0 ≤ (mixSRGB palette counts total).2.2 := by
  unfold mixSRGB
  by_cases ht : total = 0
  · rw [if_pos ht]
    norm_num
  · rw [if_neg ht]
    have hs := mixSum_nonneg palette counts total hpal
    exact ⟨round_nonneg_of_nonneg _ hs.1, round_nonneg_of_nonneg _ hs.2.1,
      round_nonneg_of_nonneg _ hs.2.2⟩

theorem shadeOf_nonneg (t m : ℕ) : 0 ≤ shadeOf t m := by
  unfold shadeOf
  have hs := Real.sqrt_nonneg ((t : ℝ) / (if m = 0 then 1 else (m : ℝ)))
  nlinarith

theorem shadeChannel_bounds (c : ℤ) (s : ℝ) (hc : 0 ≤ c) (hs : 0 ≤ s) :
    0 ≤ shadeChannel c s ∧ shadeChannel c s ≤ 255 := by
  unfold shadeChannel
  constructor
  · refine le_min (by norm_num) ?_
    exact round_nonneg_of_nonneg _ (mul_nonneg (by exact_mod_cast hc) hs)
  · exact min_le_left _ _

/-- Claim C8: every non-empty published cell is an rgb triple whose three
    channel values are integers within [0, 255], for any palette meeting
    the data-model channel bounds. -/
theorem channels_in_bounds (W H : ℕ) (palette : List RGB) (ps : List Point) (i : ℕ)
    (hpal : ∀ c ∈ palette,
      0 ≤ c.1 ∧ c.1 ≤ 255 ∧ 0 ≤ c.2.1 ∧ c.2.1 ≤ 255 ∧ 0 ≤ c.2.2 ∧ c.2.2 ≤ 255)
    (h : totalsArr W H ps i ≠ 0) :
    ∃ r g b, (render W H palette ps).getD i Cell.transparent = Cell.rgb r g b ∧
      0 ≤ r ∧ r ≤ 255 ∧ 0 ≤ g ∧ g ≤ 255 ∧ 0 ≤ b ∧ b ≤ 255 := by
  have hi : i < W * H := by
    by_contra hle
    push_neg at hle
    exact h (totalsArr_eq_zero_of_le W H ps i hle)
  rw [render_getD W H palette ps i hi]
  unfold renderCell
  rw [if_neg h]
  have hpal0 : ∀ c ∈ palette, 0 ≤ c.1 ∧ 0 ≤ c.2.1 ∧ 0 ≤ c.2.2 := by
    intro c hc
    obtain ⟨a, -, b, -, d, -⟩ := hpal c hc
    exact ⟨a, b, d⟩
  have hmix := mixSRGB_nonneg palette
    [slotCount W H ps (i * 4), slotCount W H ps (i * 4 + 1),
     slotCount W H ps (i * 4 + 2), slotCount W H ps (i * 4 + 3)]
    (totalsArr W H ps i) hpal0
  have hs := shadeOf_nonneg (totalsArr W H ps i) (maxTot W H ps)
  have hb1 := shadeChannel_bounds _ _ hmix.1 hs
  have hb2 := shadeChannel_bounds _ _ hmix.2.1 hs
  have hb3 := shadeChannel_bounds _ _ hmix.2.2 hs
  exact ⟨_, _, _, rfl, hb1.1, hb1.2, hb2.1, hb2.2, hb3.1, hb3.2⟩

theorem mixSum_eq_spec (palette : List RGB) (counts : List ℕ) (total : ℕ) :
    mixSum palette counts total =
      (∑ k in Finset.range palette.length,
        ((palette.getD k (0, 0, 0)).1 : ℚ) * ((counts.getD k 0 : ℚ) / (total : ℚ)),
       ∑ k in Finset.range palette.length,
        ((palette.getD k (0, 0, 0)).2.1 : ℚ) * ((counts.getD k 0 : ℚ) / (total : ℚ)),
       ∑ k in Finset.range palette.length,
        ((palette.getD k (0, 0, 0)).2.2 : ℚ) * ((counts.getD k 0 : ℚ) / (total : ℚ))) := by
  induction palette generalizing counts with
  | nil => simp [mixSum_nil]
  | cons c ptl ih =>
    cases counts with
    | nil =>
      simp [mixSum_none, List.getD_nil]
    | cons n ctl =>
      rw [mixSum_cons, ih ctl]
      simp only [List.length_cons, Finset.sum_range_succ', List.getD_cons_succ,
        List.getD_cons_zero, Prod.mk.injEq]
      refine ⟨by ring, by ring, by ring⟩

/-- Claim C3: for a nonzero total the mixer computes, per channel, the
    round of the weighted palette sum of the specification; with a K = 2
    palette and a cell of 5 category-0 and 5 category-2 points the
    pre-round blend is exactly half of palette[0] per channel and the
    mixed color is its per-channel round — the category-2 mass receives no
    hue and only dilutes. -/
theorem mix_formula_and_overflow_dilution (palette : List RGB) (counts : List ℕ)
    (total : ℕ) (c0 c1 : RGB) (h : total ≠ 0) :
    mixSRGB palette counts total = specMixColor palette counts total ∧
    mixSum [c0, c1] [5, 0, 5, 0] 10 =
      ((c0.1 : ℚ) / 2, (c0.2.1 : ℚ) / 2, (c0.2.2 : ℚ) / 2) ∧
    mixSRGB [c0, c1] [5, 0, 5, 0] 10 =
      (round ((c0.1 : ℚ) / 2), round ((c0.2.1 : ℚ) / 2), round ((c0.2.2 : ℚ) / 2)) := by
  have hsum : mixSum [c0, c1] [5, 0, 5, 0] 10 =
      ((c0.1 : ℚ) / 2, (c0.2.1 : ℚ) / 2, (c0.2.2 : ℚ) / 2) := by
    rw [mixSum_cons, mixSum_cons, mixSum_nil]
    norm_num
    refine ⟨by ring, by ring, by ring⟩
  refine ⟨?_, hsum, ?_⟩
  · unfold mixSRGB specMixColor
    rw [if_neg h, mixSum_eq_spec]
  · unfold mixSRGB
    rw [if_neg (by norm_num : (10 : ℕ) ≠ 0), hsum]

/-- Witness for mix_formula_and_overflow_dilution at concrete inputs. -/
theorem mix_formula_and_overflow_dilution_witness :
    (10 : ℕ) ≠ 0 ∧
    (mixSRGB PALETTE [1, 2, 3, 4] 10 = specMixColor PALETTE [1, 2, 3, 4] 10 ∧
     mixSum [((10 : ℤ), 20, 30), (1, 2, 3)] [5, 0, 5, 0] 10 =
       (((((10 : ℤ), 20, 30) : RGB).1 : ℚ) / 2, ((((10 : ℤ), 20, 30) : RGB).2.1 : ℚ) / 2,
        ((((10 : ℤ), 20, 30) : RGB).2.2 : ℚ) / 2) ∧
     mixSRGB [((10 : ℤ), 20, 30), (1, 2, 3)] [5, 0, 5, 0] 10 =
       (round (((((10 : ℤ), 20, 30) : RGB).1 : ℚ) / 2),
        round (((((10 : ℤ), 20, 30) : RGB).2.1 : ℚ) / 2),
        round (((((10 : ℤ), 20, 30) : RGB).2.2 : ℚ) / 2))) :=
  ⟨by norm_num,
   mix_formula_and_overflow_dilution PALETTE [1, 2, 3, 4] 10 (10, 20, 30) (1, 2, 3)
     (by norm_num)⟩

/-- Counterexample to claim C9: on a zero-total cell the mixer does
    produce an RGB triple — plain white — rather than "no color". -/
theorem mixer_zero_total_outputs_white_triple :
    mixSRGB PALETTE [0, 0, 0, 0] 0 = ((255 : ℤ), 255, 255) := by
  unfold mixSRGB
  rw [if_pos rfl]

/-- Claim C9 amended: given total = 0 the mixer returns the triple
    (255,255,255); the render loop never consults it for an empty
    cell, assigning the sentinel directly instead. -/
theorem mix_zero_total_white (palette : List RGB) (counts : List ℕ) :
    mixSRGB palette counts 0 = ((255 : ℤ), 255, 255) := by
  unfold mixSRGB
  rw [if_pos rfl]

theorem totalsArr_overflowBase_cell0 : totalsArr 2 2 overflowBase 0 = 1 := by
  norm_num [totalsArr, extentOf, overflowBase, listMin, listMax, minOpt, maxOpt,
    List.countP_cons, List.countP_nil, acceptPoint, binIx, binIy, cellIdx]

/-- Counterexample to claim C1: in the concrete scenario W = H = 2 with
    extent [0,9] x [0,9], the point (9,9) at the maximum edge computes
    bin indices (2,2), fails the 0..W-1 range filter, and is dropped; the
    last cell (ix,iy) = (1,1) — linear index 3 — stays empty, so the point
    is rejected rather than clamped into it. -/
theorem scenario_max_edge_point_rejected :
    extentOf scenarioPts = some ⟨0, 9, 0, 9⟩ ∧
    binIx 0 9 2 9 = 2 ∧ binIy 0 9 2 9 = 2 ∧
    acceptPoint 2 2 ⟨0, 9, 0, 9⟩ ⟨9, 9, 1⟩ = false ∧
    totalsArr 2 2 scenarioPts 3 = 0 := by
  refine ⟨?_, ?_, ?_, ?_, ?_⟩ <;>
    norm_num [totalsArr, extentOf, scenarioPts, listMin, listMax, minOpt, maxOpt,
      List.countP_cons, List.countP_nil, acceptPoint, binIx, binIy, cellIdx]

/-- Claim C1 amended: a point sitting exactly at the maximum x extent edge
    computes bin index W, which violates the ix ≤ W - 1 filter, so the
    point is rejected (silently dropped) — not clamped into column W - 1. -/
theorem accept_at_xmax_false (W H : ℕ) (e : Extent) (p : Point) (hx : p.x = e.xmax) :
    acceptPoint W H e p = false := by
  by_cases hd : e.xmin < e.xmax
  · have hbin : binIx e.xmin e.xmax W p.x = (W : ℤ) := by
      rw [hx]
      unfold binIx
      rw [div_self (sub_ne_zero.mpr (ne_of_gt hd)), one_mul, Int.floor_natCast]
    have hW : ¬ (binIx e.xmin e.xmax W p.x ≤ (W : ℤ) - 1) := by
      rw [hbin]; omega
    simp [acceptPoint, hW]
  · simp [acceptPoint, hd]

/-- Witness for accept_at_xmax_false at the scenario's edge point. -/
theorem accept_at_xmax_false_witness :
    (Point.mk 9 9 1).x = (Extent.mk 0 9 0 9).xmax ∧
    acceptPoint 2 2 ⟨0, 9, 0, 9⟩ ⟨9, 9, 1⟩ = false :=
  ⟨rfl, accept_at_xmax_false 2 2 ⟨0, 9, 0, 9⟩ ⟨9, 9, 1⟩ rfl⟩

/-- Claim C2 exhibit: over extent [0,8] x [0,8] with W = H = 2, adding the
    category-4 point (0,0,4) (an overflow category, K = 4) to cell 0 does
    increment cell 0's total (1 to 2), but it also increments linear count
    slot 0*4+4 = 4 — which is cell 1's category-0 counter — from 0 to 1,
    corrupting another cell's per-category counter. -/
theorem overflow_category_corrupts_neighbor_counter :
    totalsArr 2 2 overflowPts 0 = 2 ∧ totalsArr 2 2 overflowBase 0 = 1 ∧
    slotCount 2 2 overflowPts 4 = 1 ∧ slotCount 2 2 overflowBase 4 = 0 := by
  refine ⟨?_, ?_, ?_, ?_⟩ <;>
    norm_num [totalsArr, slotCount, extentOf, overflowPts, overflowBase, listMin,
      listMax, minOpt, maxOpt, List.countP_cons, List.countP_nil, acceptPoint,
      binIx, binIy, cellIdx]

/-- Witness for shade_guard_and_formula on a grid whose cell 0 holds one point. -/
theorem shade_guard_and_formula_witness :
    (0 < 2 * 2 ∧ totalsArr 2 2 overflowBase 0 ≠ 0) ∧
    (1 ≤ totalsArr 2 2 overflowBase 0 ∧
     totalsArr 2 2 overflowBase 0 ≤ maxTot 2 2 overflowBase ∧
     maxTot 2 2 overflowBase ≠ 0 ∧
     shadeOf (totalsArr 2 2 overflowBase 0) (maxTot 2 2 overflowBase) =
       0.15 + 0.85 * Real.sqrt
         ((totalsArr 2 2 overflowBase 0 : ℝ) / (maxTot 2 2 overflowBase : ℝ))) :=
  ⟨⟨by norm_num, by rw [totalsArr_overflowBase_cell0]; norm_num⟩,
   shade_guard_and_formula 2 2 overflowBase 0 (by norm_num)
     (by rw [totalsArr_overflowBase_cell0]; norm_num)⟩

/-- Witness for channels_in_bounds with the code palette on a one-point cell. -/
theorem channels_in_bounds_witness :
    ((∀ c ∈ PALETTE,
        0 ≤ c.1 ∧ c.1 ≤ 255 ∧ 0 ≤ c.2.1 ∧ c.2.1 ≤ 255 ∧ 0 ≤ c.2.2 ∧ c.2.2 ≤ 255) ∧
     totalsArr 2 2 overflowBase 0 ≠ 0) ∧
    (∃ r g b, (render 2 2 PALETTE overflowBase).getD 0 Cell.transparent = Cell.rgb r g b ∧
      0 ≤ r ∧ r ≤ 255 ∧ 0 ≤ g ∧ g ≤ 255 ∧ 0 ≤ b ∧ b ≤ 255) :=
  ⟨⟨by decide, by rw [totalsArr_overflowBase_cell0]; norm_num⟩,
   channels_in_bounds 2 2 PALETTE overflowBase 0 (by decide)
     (by rw [totalsArr_overflowBase_cell0]; norm_num)⟩

theorem cell_decomp_unique (W : ℕ) (bx tx byy ty : ℤ)
    (hbx0 : 0 ≤ bx) (hbxW : bx ≤ (W : ℤ) - 1) (htx0 : 0 ≤ tx) (htxW : tx ≤ (W : ℤ) - 1)
    (heq : byy * (W : ℤ) + bx = ty * (W : ℤ) + tx) : bx = tx ∧ byy = ty := by
  have hdvd : (W : ℤ) ∣ (bx - tx) := ⟨ty - byy, by linear_combination heq⟩
  have habs : |bx - tx| < (W : ℤ) := by
    rw [abs_lt]
    omega
  have h0 : bx - tx = 0 := Int.eq_zero_of_abs_lt_dvd hdvd habs
  have hW0 : (W : ℤ) ≠ 0 := by omega
  refine ⟨by omega, ?_⟩
  have h2 : (W : ℤ) * (ty - byy) = 0 := by linear_combination h0 - heq
  rcases mul_eq_zero.mp h2 with h | h
  · exact absurd h hW0
  · omega

theorem specBin_accept (W H : ℕ) (e : Extent) (p : Point) :
    specBin W H e p = if acceptPoint W H e p
      then some (binIx e.xmin e.xmax W p.x, binIy e.ymin e.ymax H p.y)
      else none := by
  by_cases hacc : acceptPoint W H e p = true
  · rw [if_pos hacc]
    obtain ⟨h1, h2, h3, h4, h5, h6, h7, h8, h9, h10⟩ :=
      (acceptPoint_eq_true_iff W H e p).mp hacc
    have hd : ¬(e.xmax = e.xmin ∨ e.ymax = e.ymin) := by
      push_neg
      exact ⟨ne_of_gt h1, ne_of_gt h2⟩
    have ho : ¬(p.x < e.xmin ∨ e.xmax < p.x ∨ p.y < e.ymin ∨ e.ymax < p.y) := by
      push_neg
      exact ⟨h3, h4, h5, h6⟩
    unfold specBin
    rw [if_neg hd, if_neg ho, if_pos ⟨h7, h8, h9, h10⟩]
  · rw [if_neg hacc]
    unfold specBin
    by_cases hd : e.xmax = e.xmin ∨ e.ymax = e.ymin
    · rw [if_pos hd]
    · rw [if_neg hd]
      by_cases ho : p.x < e.xmin ∨ e.xmax < p.x ∨ p.y < e.ymin ∨ e.ymax < p.y
      · rw [if_pos ho]
      · rw [if_neg ho]
        have hr : ¬(0 ≤ binIx e.xmin e.xmax W p.x ∧
            binIx e.xmin e.xmax W p.x ≤ (W : ℤ) - 1 ∧
            0 ≤ binIy e.ymin e.ymax H p.y ∧ binIy e.ymin e.ymax H p.y ≤ (H : ℤ) - 1) := by
          intro hr
          apply hacc
          rw [acceptPoint_eq_true_iff]
          push_neg at hd ho
          have hxe : e.xmin < e.xmax :=
            lt_of_le_of_ne (le_trans ho.1 ho.2.1) (fun heq => hd.1 heq.symm)
          have hye : e.ymin < e.ymax :=
            lt_of_le_of_ne (le_trans ho.2.2.1 ho.2.2.2) (fun heq => hd.2 heq.symm)
          exact ⟨hxe, hye, ho.1, ho.2.1, ho.2.2.1, ho.2.2.2,
            hr.1, hr.2.1, hr.2.2.1, hr.2.2.2⟩
        rw [if_neg hr]

theorem accepted_cell_eq_iff (W H : ℕ) (e : Extent) (p : Point)
    (hacc : acceptPoint W H e p = true) (ix iy : ℕ) (hx : ix < W) :
    cellIdx W H e p = ((iy * W + ix : ℕ) : ℤ) ↔
      binIx e.xmin e.xmax W p.x = (ix : ℤ) ∧ binIy e.ymin e.ymax H p.y = (iy : ℤ) := by
  obtain ⟨-, -, -, -, -, -, h7, h8, h9, h10⟩ := (acceptPoint_eq_true_iff W H e p).mp hacc
  constructor
  · intro hcell
    have hcell2 : binIy e.ymin e.ymax H p.y * (W : ℤ) + binIx e.xmin e.xmax W p.x
        = (iy : ℤ) * (W : ℤ) + (ix : ℤ) := by
      unfold cellIdx at hcell
      push_cast at hcell
      linarith
    have hx0 : (0 : ℤ) ≤ (ix : ℤ) := Int.natCast_nonneg ix
    have hxW : (ix : ℤ) ≤ (W : ℤ) - 1 := by omega
    exact cell_decomp_unique W (binIx e.xmin e.xmax W p.x) (ix : ℤ)
      (binIy e.ymin e.ymax H p.y) (iy : ℤ) h7 h8 hx0 hxW hcell2
  · rintro ⟨hbx, hby⟩
    unfold cellIdx
    rw [hbx, hby]
    push_cast
    ring

theorem delegated_totals_eq_spec (W H : ℕ) (ps : List Point) (ix iy : ℕ)
    (hx : ix < W) :
    totalsArr W H ps (iy * W + ix) = specCellTotal W H ps (ix : ℤ) (iy : ℤ) := by
  unfold totalsArr specCellTotal
  cases hE : extentOf ps with
  | none => rfl
  | some e =>
    apply List.countP_congr
    intro p hp
    simp only [Bool.and_eq_true, decide_eq_true_eq]
    rw [specBin_accept]
    by_cases hacc : acceptPoint W H e p = true
    · rw [if_pos hacc]
      simp only [Option.some.injEq, Prod.mk.injEq]
      constructor
      · rintro ⟨-, hcell⟩
        exact (accepted_cell_eq_iff W H e p hacc ix iy hx).mp hcell
      · intro hb
        exact ⟨hacc, (accepted_cell_eq_iff W H e p hacc ix iy hx).mpr hb⟩
    · rw [if_neg hacc]
      simp [hacc]

theorem delegated_counts_eq_spec (W H : ℕ) (ps : List Point)
    (hcat : ∀ p ∈ ps, p.cat < 4) (ix iy k : ℕ) (hx : ix < W) (hk : k < 4) :
    slotCount W H ps ((iy * W + ix) * 4 + k) = specCellCount W H 4 ps (ix : ℤ) (iy : ℤ) k := by
  unfold slotCount specCellCount
  rw [if_pos hk]
  cases hE : extentOf ps with
  | none => rfl
  | some e =>
    apply List.countP_congr
    intro p hp
    simp only [Bool.and_eq_true, decide_eq_true_eq]
    rw [specBin_accept]
    by_cases hacc : acceptPoint W H e p = true
    · rw [if_pos hacc]
      simp only [Option.some.injEq, Prod.mk.injEq]
      have hcp := hcat p hp
      constructor
      · rintro ⟨-, hslot⟩
        have hck : cellIdx W H e p = ((iy * W + ix : ℕ) : ℤ) ∧ p.cat = k := by
          generalize hu : iy * W + ix = u at hslot ⊢
          push_cast at hslot
          omega
        exact ⟨(accepted_cell_eq_iff W H e p hacc ix iy hx).mp hck.1, hck.2⟩
      · rintro ⟨hb, hcatk⟩
        refine ⟨hacc, ?_⟩
        have h1 : cellIdx W H e p = ((iy * W + ix : ℕ) : ℤ) :=
          (accepted_cell_eq_iff W H e p hacc ix iy hx).mpr hb
        rw [h1, hcatk]
        push_cast
        ring
    · rw [if_neg hacc]
      simp [hacc]

/-- Claim C10 amended: for point data whose category indices all lie below
    the palette length K = 4, the delegated strategy (binning SQL plus the
    accumulation loop) and the in-process strategy of the spec produce
    identical per-cell totals and per-category counts for every cell; with
    an overflow category the strategies disagree (see the counterexample). -/
theorem delegated_eq_inprocess_aggregation (W H : ℕ) (ps : List Point)
    (hcat : ∀ p ∈ ps, p.cat < 4) (ix iy k : ℕ) (hx : ix < W) (hy : iy < H) (hk : k < 4) :
    totalsArr W H ps (iy * W + ix) = specCellTotal W H ps (ix : ℤ) (iy : ℤ) ∧
    slotCount W H ps ((iy * W + ix) * 4 + k) = specCellCount W H 4 ps (ix : ℤ) (iy : ℤ) k :=
  ⟨delegated_totals_eq_spec W H ps ix iy hx,
   delegated_counts_eq_spec W H ps hcat ix iy k hx hk⟩

/-- Witness for delegated_eq_inprocess_aggregation on in-palette data. -/
theorem delegated_eq_inprocess_aggregation_witness :
    ((∀ p ∈ overflowBase, p.cat < 4) ∧ 0 < 2 ∧ 0 < 2 ∧ 0 < 4) ∧
    (totalsArr 2 2 overflowBase (0 * 2 + 0) = specCellTotal 2 2 overflowBase 0 0 ∧
     slotCount 2 2 overflowBase ((0 * 2 + 0) * 4 + 0) = specCellCount 2 2 4 overflowBase 0 0 0) :=
  ⟨⟨by decide, by norm_num, by norm_num, by norm_num⟩,
   delegated_eq_inprocess_aggregation 2 2 overflowBase (by decide) 0 0 0
     (by norm_num) (by norm_num) (by norm_num)⟩

/-- Counterexample to claim C10: on data holding a category-4 point, the
    delegated accumulation credits cell (1,0)'s category-0 counter (linear
    slot 4) with one point, while the in-process strategy of the spec gives
    that counter 0 — the two strategies do not produce identical
    CellAggregate results. -/
theorem delegated_and_inprocess_aggregation_differ :
    slotCount 2 2 overflowPts (1 * 4 + 0) = 1 ∧
    specCellCount 2 2 4 overflowPts 1 0 0 = 0 := by
  constructor
  · norm_num [slotCount, extentOf, overflowPts, listMin, listMax, minOpt, maxOpt,
      List.countP_cons, List.countP_nil, acceptPoint, binIx, binIy, cellIdx]
  · norm_num [specCellCount, specBin, extentOf, overflowPts, listMin, listMax, minOpt,
      maxOpt, List.countP_cons, List.countP_nil, binIx, binIy]
